import Mathlib

/-!
Verification of the muyu chant-reader playback core (src/src/modules/AudioEngine.js).

The development shallowly embeds the timing-critical parts of the source:
the cue-sequence builder (createPlaybackSequence), the playback scheduler
state and its operations (startPlayback, startPlaybackSequence,
executeSequenceInPhases, executeMuyuSequence, the legacy executeSequence,
pausePlayback, resumePlayback, completePlayback, setPlaybackSpeed,
adjustPlaybackSpeed), a wall-clock-timed model of the periodic loop, and
the highlight synchronizer (LyricsTextManager.highlightCharacter).

Machine times and speeds are modelled as rationals.  Callback invocations
and audio-device requests are modelled as an explicit effect trace.
-/

/-- One glyph of the loaded text, as produced by LyricsTextManager.parseTextToLines:
the engine reads only isPunctuation and isSpace, the highlighter reads lineIndex. -/
structure CharData where
  lineIndex : Nat
  isPunctuation : Bool
  isSpace : Bool
  deriving Repr, DecidableEq

/-- The two audio cue kinds of the source: the bowl (start cue) and the muyu tap. -/
inductive CueType where
  | bowl
  | muyu
  deriving Repr, DecidableEq

/-- One entry of the array built by AudioEngine.createPlaybackSequence
(AudioEngine.js lines 250-276): type, delay in ms, optional character index,
the noWait flag, and the isStartBowl / isMuyu tags. -/
structure SeqEvent where
  type : CueType
  delay : ℚ
  characterIndex : Option Nat
  noWait : Bool
  isStartBowl : Bool
  isMuyu : Bool
  deriving Repr, DecidableEq

/-- Observable actions of the engine: audio-device requests and callback
invocations, recorded in program order.  playCue kind blocking models
playAudio(kind, noWait) with blocking = !noWait; playState models
onPlayStateChange; progress models onSequenceProgress with the loop index;
highlight models textManager.highlightCharacter; complete models
onSequenceComplete; resetPosition models textManager.resetPosition;
scheduleLoopRestart models the setTimeout in completePlayback;
warnAlreadyPlaying models the early return of startPlaybackSequence;
logCueFailure models the console warning from the rejected fire-and-forget
play promise (AudioEngine.js lines 148-159). -/
inductive Effect where
  | playCue (kind : CueType) (blocking : Bool)
  | playState (playing : Bool) (paused : Bool)
  | progress (loopIndex : Nat)
  | highlight (charIndex : Nat)
  | complete
  | resetPosition
  | scheduleLoopRestart (delayMs : ℚ)
  | warnAlreadyPlaying
  | logCueFailure (loopIndex : Nat)
  deriving Repr, DecidableEq

/-- The mutable instance fields of class AudioEngine (constructor, lines 8-17),
restricted to the ones the verified operations read or write.
muyuStartTime is the periodic-phase anchor (undefined until the muyu phase
starts, hence an Option); hasTextManager models whether this.textManager
has been assigned. -/
structure AudioEngine where
  isPlaying : Bool
  isPaused : Bool
  isLooping : Bool
  playbackSpeed : ℚ
  currentSequence : Option (List SeqEvent)
  sequenceIndex : Nat
  sequenceStartTime : ℚ
  muyuStartTime : Option ℚ
  hasTextManager : Bool
  deriving Repr, DecidableEq

/-- The cue-eligibility test of createPlaybackSequence, line 266:
a character produces a muyu cue when getCharacterData returned null or the
character is neither punctuation nor whitespace. -/
def muyuEligible : Option CharData → Bool
  | none => true
  | some cd => !cd.isPunctuation && !cd.isSpace

/-- The start-bowl event pushed first by createPlaybackSequence (lines 250-256). -/
def mkBowlEvent : SeqEvent :=
  { type := .bowl, delay := 0, characterIndex := none,
    noWait := false, isStartBowl := true, isMuyu := false }

/-- The character loop of createPlaybackSequence (lines 260-277): walks the
characters at absolute position i, keeping the muyu rank m; an eligible
character at position i yields a muyu event with delay m * baseInterval and
characterIndex i, and increments the rank. -/
def muyuEventsFrom (baseInterval : ℚ) : List (Option CharData) → Nat → Nat → List SeqEvent
  | [], _, _ => []
  | c :: rest, i, m =>
    if muyuEligible c then
      { type := .muyu, delay := (m : ℚ) * baseInterval, characterIndex := some i,
        noWait := true, isStartBowl := false, isMuyu := true }
        :: muyuEventsFrom baseInterval rest (i + 1) (m + 1)
    else
      muyuEventsFrom baseInterval rest (i + 1) m

/-- AudioEngine.createPlaybackSequence (lines 241-282): the base interval is
1000 / playbackSpeed; the sequence is the start bowl followed by one muyu
event per eligible character.  The chars argument stands for the values
getCharacterData(0), ..., getCharacterData(textLength - 1). -/
def createPlaybackSequence (speed : ℚ) (chars : List (Option CharData)) : List SeqEvent :=
  mkBowlEvent :: muyuEventsFrom (1000 / speed) chars 0 0

/-- Specification-side helper: the absolute positions of the cue-eligible
characters, in original order, starting the position count at i. -/
def eligiblePositions : List (Option CharData) → Nat → List Nat
  | [], _ => []
  | c :: rest, i =>
    if muyuEligible c then i :: eligiblePositions rest (i + 1)
    else eligiblePositions rest (i + 1)

/-- AudioEngine.adjustPlaybackSpeed (lines 596-635): a no-op unless playing
with the muyu anchor set; otherwise rebases the anchor with the ratio
oldSpeed / newSpeed applied to the elapsed time. -/
def adjustPlaybackSpeed (now oldSpeed newSpeed : ℚ) (e : AudioEngine) : AudioEngine :=
  if e.isPlaying = false then e
  else
    match e.muyuStartTime with
    | none => e
    | some anchor =>
      let elapsedTime := now - anchor
      let speedRatio := oldSpeed / newSpeed
      let adjustedElapsedTime := elapsedTime * speedRatio
      { e with muyuStartTime := some (now - adjustedElapsedTime) }

/-- AudioEngine.setPlaybackSpeed (lines 648-669): requests outside
[0.1, 10.0] are ignored; otherwise the speed field is updated and, when
playing, adjustPlaybackSpeed is invoked with the old and new speeds.
(The audio elements playbackRate is pinned to 1.0, which does not touch
the modelled state.) -/
def setPlaybackSpeed (now speed : ℚ) (e : AudioEngine) : AudioEngine :=
  if speed < 1 / 10 ∨ 10 < speed then e
  else
    let oldSpeed := e.playbackSpeed
    let e1 := { e with playbackSpeed := speed }
    if e1.isPlaying then adjustPlaybackSpeed now oldSpeed speed e1 else e1

/-- The effects of notifySequenceProgress(index, event) (lines 715-724):
when the event carries a character index and a text manager is attached,
the highlighter is invoked, then onSequenceProgress fires with the index. -/
def notifySequenceProgress (e : AudioEngine) (index : Nat) (ev : SeqEvent) : List Effect :=
  (match ev.characterIndex with
    | some c => if e.hasTextManager then [Effect.highlight c] else []
    | none => []) ++ [Effect.progress index]

/-- AudioEngine.completePlayback (lines 674-701): with looping on and a text
manager attached, the highlight position is reset and a restart is scheduled
after the fixed 1000 ms settle delay, with no change to the engine state
(in particular isPlaying is left true); otherwise isPlaying and isPaused are
cleared and onPlayStateChange(false) and onSequenceComplete are raised. -/
def completePlayback (e : AudioEngine) : AudioEngine × List Effect :=
  if e.isLooping && e.hasTextManager then
    (e, [Effect.resetPosition, Effect.scheduleLoopRestart 1000])
  else
    ({ e with isPlaying := false, isPaused := false },
      [Effect.playState false false, Effect.complete])

/-- AudioEngine.executeMuyuSequence (lines 369-414) on the success path where
the engine state flags are not mutated concurrently during the run (the
scheduling model is single-threaded, spec section 5): each iteration checks
isPlaying/isPaused, fires the muyu cue with playAudio(type, true), and then
notifies progress; fails i records whether the fire-and-forget play promise
of iteration i rejects, which the noWait branch of playAudio (lines 148-159)
catches and logs without ever raising into this loop, so the iteration still
notifies and advances exactly once.  When the events are exhausted,
completePlayback runs. -/
def executeMuyuSequence (e : AudioEngine) (fails : Nat → Bool) :
    List SeqEvent → Nat → AudioEngine × List Effect
  | [], _ => completePlayback e
  | ev :: rest, i =>
    if e.isPlaying = false ∨ e.isPaused = true then (e, [])
    else
      let fx := [Effect.playCue ev.type false]
        ++ (if fails i then [Effect.logCueFailure i] else [])
        ++ notifySequenceProgress e i ev
      let r := executeMuyuSequence e fails rest (i + 1)
      (r.1, fx ++ r.2)

/-- AudioEngine.executeSequenceInPhases (lines 341-364) on the path where the
bowl plays successfully: the start-bowl event is played blocking first; then,
only if there is at least one muyu event, muyuStartTime is recorded and the
muyu loop runs.  With zero muyu events nothing further happens: no anchor,
no completion.  now is the wall-clock instant at which the bowl finished
(the value Date.now() stored into muyuStartTime). -/
def executeSequenceInPhases (e : AudioEngine) (now : ℚ) (fails : Nat → Bool) :
    AudioEngine × List Effect :=
  let seq := e.currentSequence.getD []
  let bowlFx : List Effect :=
    match seq.find? (fun ev => ev.isStartBowl) with
    | some bev => if e.isPlaying then [Effect.playCue bev.type true] else []
    | none => []
  let muyus := seq.filter (fun ev => ev.isMuyu)
  if muyus.length > 0 then
    let e1 := { e with muyuStartTime := some now }
    let r := executeMuyuSequence e1 fails muyus 0
    (r.1, bowlFx ++ r.2)
  else
    (e, bowlFx)

/-- AudioEngine.startPlaybackSequence (lines 287-311): if already playing it
only warns and returns; otherwise it installs the sequence, resets the index,
sets the playing flags, records sequenceStartTime, notifies the state change
and runs the phased executor. -/
def startPlaybackSequence (e : AudioEngine) (seq : List SeqEvent) (now : ℚ)
    (fails : Nat → Bool) : AudioEngine × List Effect :=
  if e.isPlaying then (e, [Effect.warnAlreadyPlaying])
  else
    let e1 := { e with
      currentSequence := some seq, sequenceIndex := 0,
      isPlaying := true, isPaused := false, sequenceStartTime := now }
    let r := executeSequenceInPhases e1 now fails
    (r.1, Effect.playState true false :: r.2)

/-- AudioEngine.startPlayback (lines 316-336): an empty character list is
rejected with an error; otherwise the text manager is attached, the sequence
is built at the current speed, and startPlaybackSequence runs. -/
def startPlayback (e : AudioEngine) (chars : List CharData) (now : ℚ)
    (fails : Nat → Bool) : Except String (AudioEngine × List Effect) :=
  if chars.length = 0 then .error "invalid text manager or empty text"
  else
    let e1 := { e with hasTextManager := true }
    let seq := createPlaybackSequence e1.playbackSpeed (chars.map some)
    .ok (startPlaybackSequence e1 seq now fails)

/-- AudioEngine.pausePlayback (lines 500-506): only sets isPaused and
notifies; cursor, sequence and anchor fields are untouched. -/
def pausePlayback (e : AudioEngine) : AudioEngine × List Effect :=
  if e.isPlaying && !e.isPaused then
    ({ e with isPaused := true }, [Effect.playState false true])
  else (e, [])

/-- The legacy AudioEngine.executeSequence (lines 419-461), which resumePlayback
invokes: starting at this.sequenceIndex it fires every remaining event of
currentSequence (blocking according to its noWait flag), notifies progress
with the running index, increments sequenceIndex and recurses; when the
sequence is exhausted it calls completePlayback.  The list argument is the
remaining suffix of the sequence from index idx. -/
def executeSequence (e : AudioEngine) : List SeqEvent → Nat → AudioEngine × List Effect
  | [], _ => completePlayback e
  | ev :: rest, idx =>
    if e.isPlaying = false ∨ e.isPaused = true then (e, [])
    else
      let fx := Effect.playCue ev.type (!ev.noWait) :: notifySequenceProgress e idx ev
      let r := executeSequence { e with sequenceIndex := idx + 1 } rest (idx + 1)
      (r.1, fx ++ r.2)

/-- AudioEngine.resumePlayback (lines 511-524): clears isPaused, notifies, and
then calls the legacy executeSequence, which restarts dispatching from the
stored sequenceIndex over the full currentSequence (bowl included).  No anchor
field is recomputed. -/
def resumePlayback (e : AudioEngine) : AudioEngine × List Effect :=
  if e.isPlaying && e.isPaused then
    let e1 := { e with isPaused := false }
    match e1.currentSequence with
    | none =>
      let r := completePlayback e1
      (r.1, Effect.playState true false :: r.2)
    | some seq =>
      let r := executeSequence e1 (seq.drop e1.sequenceIndex) e1.sequenceIndex
      (r.1, Effect.playState true false :: r.2)
  else (e, [])

/-- One dispatched muyu cue of the wall-clock-timed loop model: its loop index
and the instant playAudio was invoked. -/
structure TimedCue where
  idx : Nat
  fireTime : ℚ
  deriving Repr, DecidableEq

/-- Wall-clock-timed model of the loop body of executeMuyuSequence
(lines 370-397) on an uninterrupted run: at iteration k the loop reads
now, computes waitTime = max 0 (delay - (now - anchor)) and dispatches at
now + waitTime = max now (anchor + delay); the next iteration observes the
clock at the dispatch instant plus a nonnegative scheduling lag j k. -/
def muyuFireList (anchor : ℚ) : List ℚ → Nat → ℚ → (Nat → ℚ) → List TimedCue
  | [], _, _, _ => []
  | d :: rest, k, now, j =>
    let fire := max now (anchor + d)
    ⟨k, fire⟩ :: muyuFireList anchor rest (k + 1) (fire + j k) j

/-- Wall-clock-timed model of executeSequenceInPhases (lines 341-364):
the bowl starts at t0 and its blocking playback lasts bowlDur; only once it
has completed is the anchor muyuStartTime taken (Date.now() at completion
plus a nonnegative lag anchorLag), and the muyu loop then starts with its
first clock reading firstPollLag after the anchor.  Returns the anchor and
the timed dispatch list. -/
def phasedTimedRun (t0 bowlDur anchorLag firstPollLag : ℚ) (delays : List ℚ)
    (j : Nat → ℚ) : ℚ × List TimedCue :=
  let bowlComplete := t0 + bowlDur
  let anchor := bowlComplete + anchorLag
  (anchor, muyuFireList anchor delays 0 (anchor + firstPollLag) j)

/-- The fields of LyricsTextManager (lines 776-800 and 1221-1257) that
highlightCharacter reads or writes: the parsed characters, the current
character and line position, the DOM class sets (the indices carrying the
highlighted respectively completed class), and the enable flag. -/
structure LyricsState where
  characters : List CharData
  currentCharIndex : Nat
  currentLineIndex : Nat
  highlighted : Finset Nat
  completed : Finset Nat
  isHighlightEnabled : Bool
  deriving DecidableEq

/-- LyricsTextManager.clearHighlight (lines 1295-1300): removes the
highlighted class everywhere. -/
def clearHighlight (st : LyricsState) : LyricsState :=
  { st with highlighted := ∅ }

/-- LyricsTextManager.highlightCharacter (lines 1221-1257): guarded by the
enable flag and the index range; clears the old highlight, moves the current
position, scrolls exactly when the line index changed, adds the highlighted
class to the target index, and for every lower index adds completed and
removes highlighted.  Returns the new state and whether a scroll was raised. -/
def highlightCharacter (st : LyricsState) (charIndex : Nat) : LyricsState × Bool :=
  if h : st.isHighlightEnabled = true ∧ charIndex < st.characters.length then
    let st1 := clearHighlight st
    let cd := st.characters.get ⟨charIndex, h.2⟩
    let newLineIndex := cd.lineIndex
    let scrolled := decide (newLineIndex ≠ st1.currentLineIndex)
    let st2 := { st1 with
      currentCharIndex := charIndex,
      currentLineIndex := if scrolled then newLineIndex else st1.currentLineIndex }
    let st3 := { st2 with highlighted := insert charIndex st2.highlighted }
    let st4 := { st3 with
      completed := st3.completed ∪ Finset.range charIndex,
      highlighted := st3.highlighted \ Finset.range charIndex }
    (st4, scrolled)
  else (st, false)

/-- Projection extracting the onSequenceProgress index from an effect. -/
def progressIndex : Effect → Option Nat
  | .progress i => some i
  | _ => none

/-- A concrete engine in the periodic phase (anchor set), used to instantiate
the speed-rebasing theorem. -/
def c1engine : AudioEngine :=
  { isPlaying := true, isPaused := false, isLooping := false, playbackSpeed := 1,
    currentSequence := none, sequenceIndex := 0, sequenceStartTime := 0,
    muyuStartTime := some 2000, hasTextManager := true }

/-- A concrete sequence of three verbal characters (the third on a new line)
built at speed 1, used for the pause/resume scenario. -/
def c4sequence : List SeqEvent :=
  createPlaybackSequence 1 [some ⟨0, false, false⟩, some ⟨0, false, false⟩, some ⟨1, false, false⟩]

/-- A concrete engine paused-later scenario start state: mid periodic phase of
c4sequence, anchor recorded, legacy cursor still 0 as the phased executor
never advances sequenceIndex. -/
def c4engine : AudioEngine :=
  { isPlaying := true, isPaused := false, isLooping := false, playbackSpeed := 1,
    currentSequence := some c4sequence, sequenceIndex := 0, sequenceStartTime := 0,
    muyuStartTime := some 2000, hasTextManager := true }

/-- A concrete engine that has just finished its periodic loop with looping
enabled and a text manager attached. -/
def c5engine : AudioEngine :=
  { isPlaying := true, isPaused := false, isLooping := true, playbackSpeed := 1,
    currentSequence := some (createPlaybackSequence 1 [some ⟨0, false, false⟩]),
    sequenceIndex := 0, sequenceStartTime := 0, muyuStartTime := some 4000,
    hasTextManager := true }

/-- A concrete freshly constructed idle engine. -/
def c6engine : AudioEngine :=
  { isPlaying := false, isPaused := false, isLooping := false, playbackSpeed := 1,
    currentSequence := none, sequenceIndex := 0, sequenceStartTime := 0,
    muyuStartTime := none, hasTextManager := false }

/-- A concrete idle engine used for the out-of-range speed request. -/
def c10engine : AudioEngine :=
  { isPlaying := true, isPaused := false, isLooping := false, playbackSpeed := 1,
    currentSequence := none, sequenceIndex := 3, sequenceStartTime := 7,
    muyuStartTime := some 500, hasTextManager := true }

/-- A concrete highlighter state over four characters on two lines, with one
mark already completed. -/
def c9state : LyricsState :=
  { characters := [⟨0, false, false⟩, ⟨0, false, false⟩, ⟨1, false, false⟩, ⟨1, false, false⟩],
    currentCharIndex := 1, currentLineIndex := 0,
    highlighted := {1}, completed := {0}, isHighlightEnabled := true }

/-- C1: for every call to adjustPlaybackSpeed(oldSpeed, newSpeed) made while
playback is active and the periodic phase has begun (muyuStartTime set), the
new anchor equals now - (now - oldAnchor) * (oldSpeed / newSpeed), for all
positive oldSpeed and newSpeed. -/
theorem adjustPlaybackSpeed_rebase (e : AudioEngine) (now anchor oldSpeed newSpeed : ℚ)
    (hp : e.isPlaying = true) (ha : e.muyuStartTime = some anchor)
    (ho : 0 < oldSpeed) (hn : 0 < newSpeed) :
    (adjustPlaybackSpeed now oldSpeed newSpeed e).muyuStartTime
      = some (now - (now - anchor) * (oldSpeed / newSpeed)) := by
  simp [adjustPlaybackSpeed, hp, ha]

/-- Witness for adjustPlaybackSpeed_rebase at a concrete engine and speeds. -/
theorem adjustPlaybackSpeed_rebase_witness :
    c1engine.isPlaying = true ∧ c1engine.muyuStartTime = some 2000 ∧
      (0 : ℚ) < 1 ∧ (0 : ℚ) < 2 ∧
      (adjustPlaybackSpeed 5000 1 2 c1engine).muyuStartTime
        = some (5000 - (5000 - 2000) * (1 / 2)) :=
  ⟨rfl, rfl, by norm_num, by norm_num,
    adjustPlaybackSpeed_rebase c1engine 5000 2000 1 2 rfl rfl (by norm_num) (by norm_num)⟩

/-- C10: for every speed below 0.1 or above 10.0, setPlaybackSpeed is a
complete no-op on the engine state and raises nothing. -/
theorem setPlaybackSpeed_out_of_range_noop (e : AudioEngine) (now s : ℚ)
    (h : s < 1 / 10 ∨ 10 < s) : setPlaybackSpeed now s e = e := by
  unfold setPlaybackSpeed
  exact if_pos h

/-- Witness for setPlaybackSpeed_out_of_range_noop at speed 20. -/
theorem setPlaybackSpeed_out_of_range_noop_witness :
    ((20 : ℚ) < 1 / 10 ∨ (10 : ℚ) < 20) ∧ setPlaybackSpeed 0 20 c10engine = c10engine :=
  ⟨Or.inr (by norm_num),
    setPlaybackSpeed_out_of_range_noop c10engine 0 20 (Or.inr (by norm_num))⟩

/-- C4 divergence, evaluated on the code model: pausing the engine mid periodic
phase and resuming does not redispatch from the retained position; instead
resumePlayback runs the legacy executeSequence from sequenceIndex 0, so the
first cue dispatched after the resume notification is the start bowl again,
followed by every periodic cue from index 0, the anchor muyuStartTime is never
rebased, and the spurious rerun even completes the sequence and clears
isPlaying. -/
theorem resumePlayback_refires_from_start :
    (resumePlayback (pausePlayback c4engine).1).2
      = [Effect.playState true false,
         Effect.playCue CueType.bowl true, Effect.progress 0,
         Effect.playCue CueType.muyu false, Effect.highlight 0, Effect.progress 1,
         Effect.playCue CueType.muyu false, Effect.highlight 1, Effect.progress 2,
         Effect.playCue CueType.muyu false, Effect.highlight 2, Effect.progress 3,
         Effect.playState false false, Effect.complete] ∧
    ((resumePlayback (pausePlayback c4engine).1).1).muyuStartTime = c4engine.muyuStartTime ∧
    ((resumePlayback (pausePlayback c4engine).1).1).isPlaying = false := by
  decide

/-- C5 divergence, evaluated on the code model: when the sequence completes
with looping enabled, completePlayback leaves isPlaying true while scheduling
the 1000 ms restart, so the delayed startPlayback call is rejected by the
already-playing guard of startPlaybackSequence: the restart produces only the
warning, fires no cue, and playback never actually restarts. -/
theorem completePlayback_loop_restart_rejected :
    completePlayback c5engine = (c5engine, [Effect.resetPosition, Effect.scheduleLoopRestart 1000]) ∧
    c5engine.isPlaying = true ∧
    startPlayback c5engine [⟨0, false, false⟩] 9999 (fun _ => false)
      = .ok (c5engine, [Effect.warnAlreadyPlaying]) :=
  ⟨rfl, rfl, rfl⟩

/-- C6 counterexample: for empty text, start() is an error, refuting the claim
that an input with zero verbal units starts without error. -/
theorem startPlayback_empty_is_error :
    startPlayback c6engine [] 0 (fun _ => false)
      = .error "invalid text manager or empty text" := rfl

/-- The character indices carried by the muyu events are exactly the positions
of the cue-eligible characters, in original order. -/
theorem muyuEventsFrom_map_characterIndex (b : ℚ) :
    ∀ (chars : List (Option CharData)) (i m : Nat),
      (muyuEventsFrom b chars i m).map SeqEvent.characterIndex
        = (eligiblePositions chars i).map some := by
  intro chars
  induction chars with
  | nil => intro i m; rfl
  | cons c rest ih =>
    intro i m
    by_cases hc : muyuEligible c = true
    · simp [muyuEventsFrom, eligiblePositions, hc, ih]
    · simp [muyuEventsFrom, eligiblePositions, hc, ih]

/-- The delays of the muyu events are consecutive multiples of the base
interval, indexed by muyu rank starting at m. -/
theorem muyuEventsFrom_map_delay (b : ℚ) :
    ∀ (chars : List (Option CharData)) (i m : Nat),
      (muyuEventsFrom b chars i m).map SeqEvent.delay
        = (List.range' m (chars.countP muyuEligible)).map (fun k => (k : ℚ) * b) := by
  intro chars
  induction chars with
  | nil => intro i m; rfl
  | cons c rest ih =>
    intro i m
    by_cases hc : muyuEligible c = true
    · rw [List.countP_cons_of_pos muyuEligible rest hc, List.range'_succ]
      simp [muyuEventsFrom, hc, ih]
    · rw [List.countP_cons_of_neg muyuEligible rest hc]
      simp [muyuEventsFrom, hc, ih]

/-- The number of muyu events equals the number of cue-eligible characters. -/
theorem muyuEventsFrom_length (b : ℚ) :
    ∀ (chars : List (Option CharData)) (i m : Nat),
      (muyuEventsFrom b chars i m).length = chars.countP muyuEligible := by
  intro chars
  induction chars with
  | nil => intro i m; rfl
  | cons c rest ih =>
    intro i m
    by_cases hc : muyuEligible c = true
    · rw [List.countP_cons_of_pos muyuEligible rest hc]
      simp [muyuEventsFrom, hc, ih]
    · rw [List.countP_cons_of_neg muyuEligible rest hc]
      simp [muyuEventsFrom, hc, ih]

/-- Every event produced by the character loop is a non-blocking muyu tap. -/
theorem muyuEventsFrom_mem (b : ℚ) :
    ∀ (chars : List (Option CharData)) (i m : Nat),
      ∀ ev ∈ muyuEventsFrom b chars i m,
        ev.isStartBowl = false ∧ ev.isMuyu = true ∧ ev.noWait = true ∧ ev.type = CueType.muyu := by
  intro chars
  induction chars with
  | nil => intro i m ev hev; simp [muyuEventsFrom] at hev
  | cons c rest ih =>
    intro i m ev hev
    by_cases hc : muyuEligible c = true
    · rw [muyuEventsFrom, if_pos hc] at hev
      rcases List.mem_cons.mp hev with h | h
      · subst h; exact ⟨rfl, rfl, rfl, rfl⟩
      · exact ih (i + 1) (m + 1) ev h
    · rw [muyuEventsFrom, if_neg hc] at hev
      exact ih (i + 1) m ev hev

/-- C2: for every character stream and speed s bigger than 0, the built
sequence is exactly one awaited start bowl at delay 0 followed by one
non-blocking muyu cue per cue-eligible (verbal) character in original
character order, where the muyu cue of verbal rank k has delay
k * (1000 / s); ineligible characters produce no event and do not shift the
delays of later cues, which depend only on verbal rank. -/
theorem createPlaybackSequence_shape (s : ℚ) (chars : List (Option CharData))
    (hs : 0 < s) :
    ∃ muyus, createPlaybackSequence s chars = mkBowlEvent :: muyus ∧
      mkBowlEvent.delay = 0 ∧ mkBowlEvent.noWait = false ∧
      mkBowlEvent.isStartBowl = true ∧
      (∀ ev ∈ muyus, ev.isStartBowl = false ∧ ev.isMuyu = true ∧ ev.noWait = true) ∧
      muyus.length = chars.countP muyuEligible ∧
      muyus.map SeqEvent.characterIndex = (eligiblePositions chars 0).map some ∧
      muyus.map SeqEvent.delay
        = (List.range (chars.countP muyuEligible)).map (fun k => (k : ℚ) * (1000 / s)) := by
  refine ⟨muyuEventsFrom (1000 / s) chars 0 0, rfl, rfl, rfl, rfl, ?_, ?_, ?_, ?_⟩
  · intro ev hev
    obtain ⟨h1, h2, h3, _⟩ := muyuEventsFrom_mem (1000 / s) chars 0 0 ev hev
    exact ⟨h1, h2, h3⟩
  · exact muyuEventsFrom_length (1000 / s) chars 0 0
  · exact muyuEventsFrom_map_characterIndex (1000 / s) chars 0 0
  · rw [List.range_eq_range']
    exact muyuEventsFrom_map_delay (1000 / s) chars 0 0

/-- Witness for createPlaybackSequence_shape on a concrete stream with an
interleaved punctuation character, at speed 2. -/
theorem createPlaybackSequence_shape_witness :
    (0 : ℚ) < 2 ∧
      ∃ muyus,
        createPlaybackSequence 2 [some ⟨0, false, false⟩, some ⟨0, true, false⟩,
            some ⟨1, false, false⟩] = mkBowlEvent :: muyus ∧
        mkBowlEvent.delay = 0 ∧ mkBowlEvent.noWait = false ∧
        mkBowlEvent.isStartBowl = true ∧
        (∀ ev ∈ muyus, ev.isStartBowl = false ∧ ev.isMuyu = true ∧ ev.noWait = true) ∧
        muyus.length = ([some ⟨0, false, false⟩, some ⟨0, true, false⟩,
            some (⟨1, false, false⟩ : CharData)] : List (Option CharData)).countP muyuEligible ∧
        muyus.map SeqEvent.characterIndex
          = (eligiblePositions [some ⟨0, false, false⟩, some ⟨0, true, false⟩,
              some ⟨1, false, false⟩] 0).map some ∧
        muyus.map SeqEvent.delay
          = (List.range (([some ⟨0, false, false⟩, some ⟨0, true, false⟩,
              some (⟨1, false, false⟩ : CharData)] : List (Option CharData)).countP
                muyuEligible)).map (fun k => (k : ℚ) * (1000 / 2)) :=
  ⟨by norm_num,
    createPlaybackSequence_shape 2 [some ⟨0, false, false⟩, some ⟨0, true, false⟩,
      some ⟨1, false, false⟩] (by norm_num)⟩

/-- C9: for every valid character index N with highlighting enabled,
highlightCharacter leaves exactly index N carrying the highlighted mark,
extends the completed marks by every index strictly below N without ever
removing an existing completed mark (so a repeated call with the same or a
lower index keeps them), moves the current position to N, and raises the
scroll action exactly when the line of character N differs from the
previously current line. -/
theorem highlightCharacter_marks (st : LyricsState) (N : Nat)
    (hEn : st.isHighlightEnabled = true) (hN : N < st.characters.length) :
    ((highlightCharacter st N).1).highlighted = {N} ∧
    ((highlightCharacter st N).1).completed = st.completed ∪ Finset.range N ∧
    st.completed ⊆ ((highlightCharacter st N).1).completed ∧
    ((highlightCharacter st N).1).currentCharIndex = N ∧
    ((highlightCharacter st N).2 = true
      ↔ (st.characters.get ⟨N, hN⟩).lineIndex ≠ st.currentLineIndex) := by
  have h : st.isHighlightEnabled = true ∧ N < st.characters.length := ⟨hEn, hN⟩
  rw [highlightCharacter, dif_pos h]
  refine ⟨?_, ?_, ?_, ?_, ?_⟩
  · ext x
    simp only [clearHighlight, Finset.mem_sdiff, Finset.mem_insert, Finset.not_mem_empty,
      or_false, Finset.mem_range, Finset.mem_singleton]
    constructor
    · rintro ⟨hx, _⟩
      exact hx
    · rintro rfl
      exact ⟨rfl, lt_irrefl _⟩
  · rfl
  · intro x hx
    exact Finset.mem_union_left _ hx
  · rfl
  · simp [clearHighlight]

/-- Witness for highlightCharacter_marks at index 2 of the concrete state. -/
theorem highlightCharacter_marks_witness :
    c9state.isHighlightEnabled = true ∧ 2 < c9state.characters.length ∧
      ((highlightCharacter c9state 2).1).highlighted = {2} ∧
      ((highlightCharacter c9state 2).1).completed = c9state.completed ∪ Finset.range 2 ∧
      c9state.completed ⊆ ((highlightCharacter c9state 2).1).completed ∧
      ((highlightCharacter c9state 2).1).currentCharIndex = 2 ∧
      ((highlightCharacter c9state 2).2 = true
        ↔ (c9state.characters.get ⟨2, by decide⟩).lineIndex ≠ c9state.currentLineIndex) :=
  ⟨rfl, by decide, highlightCharacter_marks c9state 2 rfl (by decide)⟩

/-- The loop indices attached to the timed dispatches are the consecutive
naturals from the starting cursor, whatever the anchor, clock and lags. -/
theorem muyuFireList_map_idx (anchor : ℚ) :
    ∀ (ds : List ℚ) (k : Nat) (now : ℚ) (j : Nat → ℚ),
      (muyuFireList anchor ds k now j).map TimedCue.idx = List.range' k ds.length := by
  intro ds
  induction ds with
  | nil => intro k now j; rfl
  | cons d rest ih =>
    intro k now j
    rw [List.length_cons, List.range'_succ]
    simp [muyuFireList, ih]

/-- Every timed dispatch happens no earlier than the clock reading at which
the loop entered, given nonnegative scheduling lags. -/
theorem muyuFireList_mem_le (anchor : ℚ) (j : Nat → ℚ) (hj : ∀ n, 0 ≤ j n) :
    ∀ (ds : List ℚ) (k : Nat) (now : ℚ),
      ∀ tc ∈ muyuFireList anchor ds k now j, now ≤ tc.fireTime := by
  intro ds
  induction ds with
  | nil => intro k now tc htc; simp [muyuFireList] at htc
  | cons d rest ih =>
    intro k now tc htc
    rw [muyuFireList] at htc
    rcases List.mem_cons.mp htc with h | h
    · subst h
      exact le_max_left _ _
    · have h1 : max now (anchor + d) + j k ≤ tc.fireTime := ih (k + 1) _ tc h
      calc now ≤ max now (anchor + d) := le_max_left _ _
        _ ≤ max now (anchor + d) + j k := le_add_of_nonneg_right (hj k)
        _ ≤ tc.fireTime := h1

/-- The timed dispatches are ordered: each fires no earlier than the one
before it, given nonnegative scheduling lags. -/
theorem muyuFireList_chain (anchor : ℚ) (j : Nat → ℚ) (hj : ∀ n, 0 ≤ j n) :
    ∀ (ds : List ℚ) (k : Nat) (now : ℚ),
      List.Chain' (fun a b => a.fireTime ≤ b.fireTime) (muyuFireList anchor ds k now j) := by
  intro ds
  induction ds with
  | nil => intro k now; simp [muyuFireList]
  | cons d rest ih =>
    intro k now
    rw [muyuFireList]
    rw [List.chain'_cons']
    constructor
    · intro y hy
      have hmem : y ∈ muyuFireList anchor rest (k + 1) (max now (anchor + d) + j k) j :=
        List.mem_of_mem_head? hy
      have h1 := muyuFireList_mem_le anchor j hj rest (k + 1) _ y hmem
      calc (max now (anchor + d)) ≤ max now (anchor + d) + j k :=
            le_add_of_nonneg_right (hj k)
        _ ≤ y.fireTime := h1
    · exact ih (k + 1) _

/-- Shifting the anchor and the entering clock reading by the same amount
shifts every dispatch time by that amount and changes nothing else. -/
theorem muyuFireList_shift (anchor c : ℚ) (j : Nat → ℚ) :
    ∀ (ds : List ℚ) (k : Nat) (now : ℚ),
      muyuFireList (anchor + c) ds k (now + c) j
        = (muyuFireList anchor ds k now j).map (fun tc => ⟨tc.idx, tc.fireTime + c⟩) := by
  intro ds
  induction ds with
  | nil => intro k now; rfl
  | cons d rest ih =>
    intro k now
    have hmax : max (now + c) (anchor + c + d) = max now (anchor + d) + c := by
      rw [add_right_comm anchor c d]
      exact max_add_add_right now (anchor + d) c
    rw [muyuFireList, muyuFireList]
    simp only [hmax, List.map_cons]
    rw [add_right_comm (max now (anchor + d)) c (j k)]
    rw [ih (k + 1) (max now (anchor + d) + j k)]

/-- C8: in the phased timed run the periodic anchor is taken only after the
start cue completed at t0 + bowlDur, so every periodic dispatch happens
after the start cue completed; dispatches are ordered (cue i is never
dispatched before cue i - 1) and carry the loop indices 0..K-1 in order; and
the dispatch offsets measured from the anchor are independent of the start
cue latency, so start-cue latency never skews the periodic offsets. -/
theorem phasedTimedRun_ordering (t0 bowlDur anchorLag firstPollLag : ℚ)
    (delays : List ℚ) (j : Nat → ℚ)
    (hA : 0 ≤ anchorLag) (hF : 0 ≤ firstPollLag) (hj : ∀ n, 0 ≤ j n) :
    t0 + bowlDur ≤ (phasedTimedRun t0 bowlDur anchorLag firstPollLag delays j).1 ∧
    (∀ tc ∈ (phasedTimedRun t0 bowlDur anchorLag firstPollLag delays j).2,
      t0 + bowlDur ≤ tc.fireTime) ∧
    List.Chain' (fun a b => a.fireTime ≤ b.fireTime)
      (phasedTimedRun t0 bowlDur anchorLag firstPollLag delays j).2 ∧
    ((phasedTimedRun t0 bowlDur anchorLag firstPollLag delays j).2).map TimedCue.idx
      = List.range delays.length ∧
    (∀ bowlDur2 : ℚ,
      ((phasedTimedRun t0 bowlDur2 anchorLag firstPollLag delays j).2).map
          (fun tc => tc.fireTime - (phasedTimedRun t0 bowlDur2 anchorLag firstPollLag delays j).1)
        = ((phasedTimedRun t0 bowlDur anchorLag firstPollLag delays j).2).map
          (fun tc => tc.fireTime - (phasedTimedRun t0 bowlDur anchorLag firstPollLag delays j).1)) := by
  refine ⟨?_, ?_, ?_, ?_, ?_⟩
  · exact le_add_of_nonneg_right hA
  · intro tc htc
    have h1 := muyuFireList_mem_le (t0 + bowlDur + anchorLag) j hj delays 0
      (t0 + bowlDur + anchorLag + firstPollLag) tc htc
    calc t0 + bowlDur ≤ t0 + bowlDur + anchorLag := le_add_of_nonneg_right hA
      _ ≤ t0 + bowlDur + anchorLag + firstPollLag := le_add_of_nonneg_right hF
      _ ≤ tc.fireTime := h1
  · exact muyuFireList_chain (t0 + bowlDur + anchorLag) j hj delays 0 _
  · rw [List.range_eq_range']
    exact muyuFireList_map_idx (t0 + bowlDur + anchorLag) delays 0 _ j
  · intro bowlDur2
    have hshift := muyuFireList_shift (t0 + bowlDur + anchorLag) (bowlDur2 - bowlDur) j
      delays 0 (t0 + bowlDur + anchorLag + firstPollLag)
    have ha2 : t0 + bowlDur2 + anchorLag = t0 + bowlDur + anchorLag + (bowlDur2 - bowlDur) := by
      ring
    have hn2 : t0 + bowlDur2 + anchorLag + firstPollLag
        = t0 + bowlDur + anchorLag + firstPollLag + (bowlDur2 - bowlDur) := by
      ring
    show (muyuFireList (t0 + bowlDur2 + anchorLag) delays 0
        (t0 + bowlDur2 + anchorLag + firstPollLag) j).map
        (fun tc => tc.fireTime - (t0 + bowlDur2 + anchorLag))
      = (muyuFireList (t0 + bowlDur + anchorLag) delays 0
        (t0 + bowlDur + anchorLag + firstPollLag) j).map
        (fun tc => tc.fireTime - (t0 + bowlDur + anchorLag))
    rw [hn2, ha2, hshift, List.map_map]
    apply List.map_congr_left
    intro tc _
    simp

/-- Witness for phasedTimedRun_ordering at a concrete run: bowl start 0,
bowl latency 300, no lags, three delays, unit loop lag. -/
theorem phasedTimedRun_ordering_witness :
    (0 : ℚ) ≤ 0 ∧ (∀ n : Nat, (0 : ℚ) ≤ (fun _ : Nat => (1 : ℚ)) n) ∧
      ((0 : ℚ) + 300 ≤ (phasedTimedRun 0 300 0 0 [0, 500, 1000] (fun _ => 1)).1 ∧
      (∀ tc ∈ (phasedTimedRun 0 300 0 0 [0, 500, 1000] (fun _ => 1)).2,
        (0 : ℚ) + 300 ≤ tc.fireTime) ∧
      List.Chain' (fun a b => a.fireTime ≤ b.fireTime)
        (phasedTimedRun 0 300 0 0 [0, 500, 1000] (fun _ => 1)).2 ∧
      ((phasedTimedRun 0 300 0 0 [0, 500, 1000] (fun _ => 1)).2).map TimedCue.idx
        = List.range ([0, 500, 1000] : List ℚ).length ∧
      (∀ bowlDur2 : ℚ,
        ((phasedTimedRun 0 bowlDur2 0 0 [0, 500, 1000] (fun _ => 1)).2).map
            (fun tc => tc.fireTime - (phasedTimedRun 0 bowlDur2 0 0 [0, 500, 1000] (fun _ => 1)).1)
          = ((phasedTimedRun 0 300 0 0 [0, 500, 1000] (fun _ => 1)).2).map
            (fun tc => tc.fireTime - (phasedTimedRun 0 300 0 0 [0, 500, 1000] (fun _ => 1)).1))) :=
  ⟨le_refl 0, fun _ => by norm_num,
    phasedTimedRun_ordering 0 300 0 0 [0, 500, 1000] (fun _ => 1)
      (le_refl 0) (le_refl 0) (fun _ => by norm_num)⟩

/-- C3: changing speed while the periodic loop is running does not restart
playback (the playing flag, the stored sequence and the legacy sequence index
are untouched) and does not change which periodic cue is dispatched next: for
whatever rebased anchor the change produced, the timed loop model resumed at
cursor k dispatches exactly the indices k, k+1, ... it would have dispatched
under the old anchor, whatever the clock readings and lags; only the
wall-clock firing times shift. -/
theorem setPlaybackSpeed_midplay_continuity (e : AudioEngine) (now s2 anchor : ℚ)
    (hp : e.isPlaying = true) (ha : e.muyuStartTime = some anchor)
    (h1 : 0 < e.playbackSpeed) (h2 : 0 < s2) :
    (setPlaybackSpeed now s2 e).isPlaying = true ∧
    (setPlaybackSpeed now s2 e).sequenceIndex = e.sequenceIndex ∧
    (setPlaybackSpeed now s2 e).currentSequence = e.currentSequence ∧
    ∀ (anchor2 : ℚ) (ds : List ℚ) (k : Nat) (now1 now2 : ℚ) (j1 j2 : Nat → ℚ),
      (setPlaybackSpeed now s2 e).muyuStartTime = some anchor2 →
      (muyuFireList anchor2 ds k now2 j2).map TimedCue.idx
        = (muyuFireList anchor ds k now1 j1).map TimedCue.idx := by
  have hmain : (setPlaybackSpeed now s2 e).isPlaying = true ∧
      (setPlaybackSpeed now s2 e).sequenceIndex = e.sequenceIndex ∧
      (setPlaybackSpeed now s2 e).currentSequence = e.currentSequence := by
    by_cases hr : s2 < 1 / 10 ∨ 10 < s2
    · rw [setPlaybackSpeed, if_pos hr]
      exact ⟨hp, rfl, rfl⟩
    · rw [setPlaybackSpeed, if_neg hr]
      simp only [hp, if_true, adjustPlaybackSpeed, ha]
      exact ⟨rfl, rfl, rfl⟩
  refine ⟨hmain.1, hmain.2.1, hmain.2.2, ?_⟩
  intro anchor2 ds k now1 now2 j1 j2 _
  rw [muyuFireList_map_idx, muyuFireList_map_idx]

/-- Witness for setPlaybackSpeed_midplay_continuity at a concrete mid-playback
engine, changing speed from 1 to 2. -/
theorem setPlaybackSpeed_midplay_continuity_witness :
    c1engine.isPlaying = true ∧ c1engine.muyuStartTime = some 2000 ∧
      (0 : ℚ) < c1engine.playbackSpeed ∧ (0 : ℚ) < 2 ∧
      ((setPlaybackSpeed 5000 2 c1engine).isPlaying = true ∧
      (setPlaybackSpeed 5000 2 c1engine).sequenceIndex = c1engine.sequenceIndex ∧
      (setPlaybackSpeed 5000 2 c1engine).currentSequence = c1engine.currentSequence ∧
      ∀ (anchor2 : ℚ) (ds : List ℚ) (k : Nat) (now1 now2 : ℚ) (j1 j2 : Nat → ℚ),
        (setPlaybackSpeed 5000 2 c1engine).muyuStartTime = some anchor2 →
        (muyuFireList anchor2 ds k now2 j2).map TimedCue.idx
          = (muyuFireList 2000 ds k now1 j1).map TimedCue.idx) :=
  ⟨rfl, rfl, by norm_num [c1engine], by norm_num,
    setPlaybackSpeed_midplay_continuity c1engine 5000 2 2000 rfl rfl
      (by norm_num [c1engine]) (by norm_num)⟩

/-- completePlayback raises no progress notification. -/
theorem completePlayback_no_progress (e : AudioEngine) :
    ((completePlayback e).2).filterMap progressIndex = [] := by
  rw [completePlayback]
  split <;> simp [progressIndex]

/-- notifySequenceProgress raises exactly one progress notification, carrying
its index. -/
theorem notifySequenceProgress_filterMap (e : AudioEngine) (i : Nat) (ev : SeqEvent) :
    (notifySequenceProgress e i ev).filterMap progressIndex = [i] := by
  rw [notifySequenceProgress]
  rcases ev.characterIndex with _ | c
  · simp [progressIndex]
  · by_cases hT : e.hasTextManager = true <;> simp [hT, progressIndex]

/-- On an uninterrupted playing run, whatever the fire-and-forget failures,
the muyu loop raises the progress notifications for the consecutive loop
indices starting at the cursor, one per event, in order. -/
theorem executeMuyuSequence_progress (e : AudioEngine) (fails : Nat → Bool)
    (hp : e.isPlaying = true) (hq : e.isPaused = false) :
    ∀ (evs : List SeqEvent) (i : Nat),
      ((executeMuyuSequence e fails evs i).2).filterMap progressIndex
        = List.range' i evs.length := by
  intro evs
  induction evs with
  | nil =>
    intro i
    exact completePlayback_no_progress e
  | cons ev rest ih =>
    intro i
    rw [executeMuyuSequence]
    rw [if_neg (by simp [hp, hq])]
    rw [List.length_cons, List.range'_succ]
    simp only [List.filterMap_append]
    rw [notifySequenceProgress_filterMap, ih (i + 1)]
    by_cases hf : fails i = true <;> simp [hf, progressIndex]

/-- On an uninterrupted playing non-looping run, whatever the fire-and-forget
failures, the muyu loop ends by raising the completion notification. -/
theorem executeMuyuSequence_completes (e : AudioEngine) (fails : Nat → Bool)
    (hp : e.isPlaying = true) (hq : e.isPaused = false) (hl : e.isLooping = false) :
    ∀ (evs : List SeqEvent) (i : Nat),
      Effect.complete ∈ (executeMuyuSequence e fails evs i).2 := by
  intro evs
  induction evs with
  | nil =>
    intro i
    rw [executeMuyuSequence, completePlayback, if_neg (by simp [hl])]
    simp
  | cons ev rest ih =>
    intro i
    rw [executeMuyuSequence]
    rw [if_neg (by simp [hp, hq])]
    have hrest := ih (i + 1)
    simp only [List.mem_append]
    tauto

/-- On an uninterrupted playing run with a text manager attached, every event
carrying a character index gets its highlight notification raised, whatever
the fire-and-forget failures. -/
theorem executeMuyuSequence_highlight (e : AudioEngine) (fails : Nat → Bool)
    (hp : e.isPlaying = true) (hq : e.isPaused = false) (hT : e.hasTextManager = true) :
    ∀ (evs : List SeqEvent) (i k : Nat) (hk : k < evs.length) (c : Nat),
      (evs.get ⟨k, hk⟩).characterIndex = some c →
      Effect.highlight c ∈ (executeMuyuSequence e fails evs i).2 := by
  intro evs
  induction evs with
  | nil =>
    intro i k hk
    exact absurd hk (by simp)
  | cons ev rest ih =>
    intro i k hk c hc
    rw [executeMuyuSequence, if_neg (by simp [hp, hq])]
    match k with
    | 0 =>
      have hev : ev.characterIndex = some c := by
        simpa using hc
      have hmem : Effect.highlight c ∈ notifySequenceProgress e i ev := by
        rw [notifySequenceProgress, hev]
        simp [hT]
      simp only [List.mem_append]
      tauto
    | k' + 1 =>
      have hrest := ih (i + 1) k' (Nat.lt_of_succ_lt_succ hk) c hc
      simp only [List.mem_append]
      tauto

/-- C7: for every sequence of periodic events and every single loop index k at
which the fire-and-forget playback fails (while the run is playing, unpaused
and non-looping, so the failure is not a stop-triggered abort), the loop still
raises every progress notification 0..N-1 exactly once and in order (so the
cursor reaches N, index k is not skipped and nothing is advanced twice), the
index-k highlight notification is still raised, and the completion
notification fires. -/
theorem executeMuyuSequence_transient_failure (e : AudioEngine) (evs : List SeqEvent)
    (k : Nat) (hp : e.isPlaying = true) (hq : e.isPaused = false)
    (hl : e.isLooping = false) (hT : e.hasTextManager = true)
    (hk : k < evs.length) (h0 : 0 < evs.length) :
    ((executeMuyuSequence e (fun i => i == k) evs 0).2).filterMap progressIndex
        = List.range evs.length ∧
    Effect.complete ∈ (executeMuyuSequence e (fun i => i == k) evs 0).2 ∧
    (∀ c : Nat, (evs.get ⟨k, hk⟩).characterIndex = some c →
      Effect.highlight c ∈ (executeMuyuSequence e (fun i => i == k) evs 0).2) := by
  refine ⟨?_, ?_, ?_⟩
  · rw [List.range_eq_range']
    exact executeMuyuSequence_progress e (fun i => i == k) hp hq evs 0
  · exact executeMuyuSequence_completes e (fun i => i == k) hp hq hl evs 0
  · intro c hc
    exact executeMuyuSequence_highlight e (fun i => i == k) hp hq hT evs 0 k hk c hc

/-- Witness for executeMuyuSequence_transient_failure: two muyu events, the
failure hitting index 0, on a concrete playing engine. -/
theorem executeMuyuSequence_transient_failure_witness :
    c4engine.isPlaying = true ∧ c4engine.isPaused = false ∧
      c4engine.isLooping = false ∧ c4engine.hasTextManager = true ∧
      0 < ([⟨CueType.muyu, 0, some 0, true, false, true⟩,
        ⟨CueType.muyu, 1000, some 1, true, false, true⟩] : List SeqEvent).length ∧
      (((executeMuyuSequence c4engine (fun i => i == 0)
          [⟨CueType.muyu, 0, some 0, true, false, true⟩,
           ⟨CueType.muyu, 1000, some 1, true, false, true⟩] 0).2).filterMap progressIndex
        = List.range ([⟨CueType.muyu, 0, some 0, true, false, true⟩,
            ⟨CueType.muyu, 1000, some 1, true, false, true⟩] : List SeqEvent).length ∧
      Effect.complete ∈ (executeMuyuSequence c4engine (fun i => i == 0)
          [⟨CueType.muyu, 0, some 0, true, false, true⟩,
           ⟨CueType.muyu, 1000, some 1, true, false, true⟩] 0).2 ∧
      (∀ c : Nat,
        (([⟨CueType.muyu, 0, some 0, true, false, true⟩,
            ⟨CueType.muyu, 1000, some 1, true, false, true⟩] : List SeqEvent).get
              ⟨0, by decide⟩).characterIndex = some c →
        Effect.highlight c ∈ (executeMuyuSequence c4engine (fun i => i == 0)
            [⟨CueType.muyu, 0, some 0, true, false, true⟩,
             ⟨CueType.muyu, 1000, some 1, true, false, true⟩] 0).2)) :=
  ⟨rfl, rfl, rfl, rfl, by decide,
    executeMuyuSequence_transient_failure c4engine
      [⟨CueType.muyu, 0, some 0, true, false, true⟩,
       ⟨CueType.muyu, 1000, some 1, true, false, true⟩] 0
      rfl rfl rfl rfl (by decide) (by decide)⟩

/-- A stream whose characters are all punctuation or whitespace yields no muyu
event. -/
theorem muyuEventsFrom_ineligible (b : ℚ) :
    ∀ (chars : List CharData) (i m : Nat),
      (∀ c ∈ chars, c.isPunctuation = true ∨ c.isSpace = true) →
      muyuEventsFrom b (chars.map some) i m = [] := by
  intro chars
  induction chars with
  | nil => intro i m _; rfl
  | cons c rest ih =>
    intro i m hall
    have hc : ¬ muyuEligible (some c) = true := by
      rcases hall c (List.mem_cons_self c rest) with h | h <;> simp [muyuEligible, h]
    rw [List.map_cons, muyuEventsFrom, if_neg hc]
    exact ih (i + 1) m (fun x hx => hall x (List.mem_cons_of_mem c hx))

/-- C6 as amended: for nonempty text whose units are all non-verbal, start()
is accepted and fires only the start bowl; it does not report completion and
leaves the engine in the playing state.  (For empty text start() raises an
error instead; see the counterexample.) -/
theorem startPlayback_zero_verbal (e : AudioEngine) (chars : List CharData) (now : ℚ)
    (fails : Nat → Bool) (he : e.isPlaying = false) (hne : chars ≠ [])
    (hall : ∀ c ∈ chars, c.isPunctuation = true ∨ c.isSpace = true) :
    ∃ e2, startPlayback e chars now fails
        = .ok (e2, [Effect.playState true false, Effect.playCue CueType.bowl true]) ∧
      e2.isPlaying = true ∧
      Effect.complete ∉ [Effect.playState true false, Effect.playCue CueType.bowl true] ∧
      Effect.playCue CueType.muyu false
        ∉ [Effect.playState true false, Effect.playCue CueType.bowl true] := by
  have hlen : ¬ chars.length = 0 := by
    simpa [List.length_eq_zero] using hne
  have hmu : muyuEventsFrom (1000 / e.playbackSpeed) (chars.map some) 0 0 = [] :=
    muyuEventsFrom_ineligible (1000 / e.playbackSpeed) chars 0 0 hall
  refine ⟨{ e with
    hasTextManager := true, currentSequence := some [mkBowlEvent],
    sequenceIndex := 0, isPlaying := true, isPaused := false,
    sequenceStartTime := now }, ?_, rfl, by simp, by simp⟩
  simp only [startPlayback, hlen, if_false, createPlaybackSequence, hmu,
    startPlaybackSequence, executeSequenceInPhases, mkBowlEvent]
  simp [he]

/-- Witness for startPlayback_zero_verbal on a one-character all-punctuation
stream from the idle engine. -/
theorem startPlayback_zero_verbal_witness :
    c6engine.isPlaying = false ∧ ([⟨0, true, false⟩] : List CharData) ≠ [] ∧
      (∀ c ∈ ([⟨0, true, false⟩] : List CharData),
        c.isPunctuation = true ∨ c.isSpace = true) ∧
      (∃ e2, startPlayback c6engine [⟨0, true, false⟩] 0 (fun _ => false)
          = .ok (e2, [Effect.playState true false, Effect.playCue CueType.bowl true]) ∧
        e2.isPlaying = true ∧
        Effect.complete ∉ [Effect.playState true false, Effect.playCue CueType.bowl true] ∧
        Effect.playCue CueType.muyu false
          ∉ [Effect.playState true false, Effect.playCue CueType.bowl true]) :=
  ⟨rfl, by decide, by decide,
    startPlayback_zero_verbal c6engine [⟨0, true, false⟩] 0 (fun _ => false)
      rfl (by decide) (by decide)⟩
